import Mathlib

/-!
A verification development for the word-puzzle-searcher program, shallowly
embedding the letter-count encoder (`count.rs`), the dictionary index
(`dict.rs`) and the binary format codec (`format.rs`).

Strings are modelled as lists of byte values (`List Nat`, each < 256 in the
real program), `u8` arithmetic is Nat arithmetic (all involved values stay
below 256 by the program's own guards), `usize` is the 64-bit native word of
the target platform, `HashMap` is an association list whose `insert` replaces
an existing key in place, and `HashSet` is a duplicate-free list.
-/

/-- `to_index_offset` from `count.rs`: turns a 26-based letter index into a
13-based byte index together with a nibble shift. -/
def toIndexOffset (index : Nat) : Nat × Nat :=
  (index / 2, index % 2 * 4)

/-- `CountError` from `count.rs`. -/
inductive CountError where
  | NotAscii
  | NotAlphabetic
  | CountOverflow
deriving DecidableEq

/-- `CountSet` from `count.rs`: 13 packed bytes, two 4-bit counts per byte. -/
structure CountSet where
  data : List Nat
deriving DecidableEq

/-- `u8::is_ascii_alphabetic` on a byte value. -/
def isAsciiAlphabetic (b : Nat) : Bool :=
  (decide (65 ≤ b) && decide (b ≤ 90)) || (decide (97 ≤ b) && decide (b ≤ 122))

/-- `u8::to_ascii_uppercase` on a byte value. -/
def toAsciiUppercase (b : Nat) : Nat :=
  if 97 ≤ b ∧ b ≤ 122 then b - 32 else b

/-- The counting loop of `CountSet::from_word`: each byte is uppercased and the
corresponding cell of the 26-cell array is incremented with `u8::checked_add`
semantics (`none` once a cell would exceed 255). -/
def countLoop : List Nat → List Nat → Option (List Nat)
  | [], count => some count
  | b :: rest, count =>
    let i := toAsciiUppercase b - 65
    let c := count.getD i 0
    if c + 1 ≤ 255 then countLoop rest (count.set i (c + 1))
    else none

/-- The packing loop of `TryFrom<[u8; 26]> for CountSet`: rejects any cell
above 15, otherwise ors each count into its nibble. -/
def packLoop : List Nat → Nat → List Nat → Except CountError (List Nat)
  | [], _, count => .ok count
  | c :: rest, i, count =>
    if c > 15 then .error .CountOverflow
    else
      let p := toIndexOffset i
      packLoop rest (i + 1) (count.set p.1 (count.getD p.1 0 ||| (c <<< p.2)))

/-- `TryFrom<[u8; 26]> for CountSet` from `count.rs`. -/
def CountSet.tryFrom26 (array : List Nat) : Except CountError CountSet :=
  (packLoop array 0 (List.replicate 13 0)).map CountSet.mk

/-- `CountSet::from_word` from `count.rs`: ASCII check, then alphabetic check,
then the counting loop, then packing. -/
def CountSet.from_word (word : List Nat) : Except CountError CountSet :=
  if ¬ word.all (fun b => decide (b < 128)) then .error .NotAscii
  else if ¬ word.all isAsciiAlphabetic then .error .NotAlphabetic
  else
    match countLoop word (List.replicate 26 0) with
    | none => .error .CountOverflow
    | some count => CountSet.tryFrom26 count

/-- `CountSet::index_unchecked` from `count.rs`: decode the count of one
letter out of the packed bytes. -/
def CountSet.index_unchecked (s : CountSet) (index : Nat) : Nat :=
  let p := toIndexOffset index
  (s.data.getD p.1 0 &&& (15 <<< p.2)) >>> p.2

/-- The 26 decoded counts produced in order by `CountSet::iter`. -/
def CountSet.iterList (s : CountSet) : List Nat :=
  (List.range 26).map s.index_unchecked

/-- `CountSet::contains` from `count.rs`: zip the two decoded sequences and
require `self`'s count to be at least `other`'s everywhere. -/
def CountSet.contains (s other : CountSet) : Bool :=
  (s.iterList.zip other.iterList).all (fun p => decide (p.2 ≤ p.1))

/-- Number of occurrences of letter `i` (0-25) in `word` after folding each
byte to uppercase; used to state properties of `from_word`. -/
def letterCount (word : List Nat) (i : Nat) : Nat :=
  word.countP (fun b => decide (toAsciiUppercase b = 65 + i))

/-- The `(offset, length)` span key of `dict.rs`. -/
abbrev OffsetLength := Nat × Nat

/-- `HashMap::<OffsetLength, CountSet>::insert` on the association-list model:
replaces the value of an existing key, otherwise appends the new pair. -/
def mapInsert (m : List (OffsetLength × CountSet)) (k : OffsetLength) (v : CountSet) :
    List (OffsetLength × CountSet) :=
  if k ∈ m.map Prod.fst then
    m.map (fun p => if p.1 = k then (k, v) else p)
  else m ++ [(k, v)]

/-- `Dictionary` from `dict.rs`: the backing word string, the span-to-CountSet
map and the existence-check set. -/
structure Dictionary where
  word_string : List Nat
  word_count : List (OffsetLength × CountSet)
  word_set : List (List Nat)
deriving DecidableEq

/-- `Dictionary::new`. -/
def Dictionary.new : Dictionary := ⟨[], [], []⟩

/-- `Dictionary::from_raw_parts` from `dict.rs` (used only by file reading):
takes over a word string and a span map, leaving `word_set` empty. -/
def Dictionary.from_raw_parts (ws : List Nat) (wc : List (OffsetLength × CountSet)) :
    Dictionary :=
  ⟨ws, wc, []⟩

/-- `Dictionary::add` from `dict.rs`. The post state is returned alongside the
`Result` because the word has already been pushed onto `word_string` when the
encoder fails. -/
def Dictionary.add (d : Dictionary) (word : List Nat) :
    Dictionary × Except CountError Unit :=
  if word ∈ d.word_set then (d, .ok ())
  else
    let offset := d.word_string.length
    let len := word.length
    let d1 := { d with word_string := d.word_string ++ word }
    match CountSet.from_word word with
    | .error e => (d1, .error e)
    | .ok set =>
      ({ d1 with
          word_count := mapInsert d1.word_count (offset, len) set
          word_set := d1.word_set ++ [word] },
        .ok ())

/-- `Dictionary::len` from `dict.rs`: the number of entries of the span map. -/
def Dictionary.len (d : Dictionary) : Nat :=
  d.word_count.length

/-- A sequence of `add` calls, threading the dictionary state. -/
def addSeq (d : Dictionary) : List (List Nat) → Dictionary
  | [] => d
  | w :: ws => addSeq (d.add w).1 ws

/-- `std::mem::size_of::<usize>()` on the 64-bit platforms the program
targets. -/
def USIZE : Nat := 8

/-- `std::mem::size_of::<CountSet>()`. -/
def COUNT_SET_SIZE : Nat := 13

/-- `WORD_COUNT_STRIDE` from `format.rs`. -/
def WORD_COUNT_STRIDE : Nat := USIZE * 2 + COUNT_SET_SIZE

/-- The kind of a lower-level I/O failure; `read_exact` reports a premature
end of stream as `unexpectedEof`, every other kind is a genuine failure. -/
inductive IoErrorKind where
  | unexpectedEof
  | other (code : Nat)
deriving DecidableEq

/-- An `std::io::Error`, reduced to its kind. -/
structure IoErr where
  kind : IoErrorKind
deriving DecidableEq

/-- `ReadError` from `format.rs`. -/
inductive ReadError where
  | FormatError
  | IoError (e : IoErr)
deriving DecidableEq

/-- A byte source for `read_dict`: the bytes still available, and what the
underlying reader reports once they run out (`none`: a clean end of stream,
which `read_exact` turns into an `unexpectedEof` error). -/
structure ByteStream where
  data : List Nat
  tailErr : Option IoErr
deriving DecidableEq

/-- `Read::read_exact` on the model: yields exactly `n` bytes or fails with
an `unexpectedEof` error (clean end of stream) or the underlying failure. -/
def readExact (st : ByteStream) (n : Nat) : Except IoErr (List Nat × ByteStream) :=
  if n ≤ st.data.length then .ok (st.data.take n, { st with data := st.data.drop n })
  else .error (st.tailErr.getD ⟨.unexpectedEof⟩)

/-- `to_le_bytes` for a `k`-byte little-endian integer. -/
def toLeBytes (k n : Nat) : List Nat :=
  match k with
  | 0 => []
  | k + 1 => n % 256 :: toLeBytes k (n / 256)

/-- `from_le_bytes`: recompose a little-endian byte sequence. -/
def fromLeBytes (bs : List Nat) : Nat :=
  bs.foldr (fun b acc => b + 256 * acc) 0

/-- Whether a byte is a UTF-8 continuation byte. -/
def isCont (b : Nat) : Bool :=
  decide (128 ≤ b) && decide (b ≤ 191)

/-- One step per byte of the validity check performed by `String::from_utf8`
(RFC 3629 UTF-8: no overlong forms, no surrogates, maximum U+10FFFF): the
Nat argument counts pending continuation bytes and the function argument is
the admissible range of the next continuation byte. -/
def validUtf8Go : List Nat → Nat → (Nat → Bool) → Bool
  | [], 0, _ => true
  | [], _ + 1, _ => false
  | b :: rest, 0, _ =>
    if b ≤ 127 then validUtf8Go rest 0 isCont
    else if 194 ≤ b ∧ b ≤ 223 then validUtf8Go rest 1 isCont
    else if b = 224 then validUtf8Go rest 2 (fun c => decide (160 ≤ c) && decide (c ≤ 191))
    else if (225 ≤ b ∧ b ≤ 236) ∨ b = 238 ∨ b = 239 then validUtf8Go rest 2 isCont
    else if b = 237 then validUtf8Go rest 2 (fun c => decide (128 ≤ c) && decide (c ≤ 159))
    else if b = 240 then validUtf8Go rest 3 (fun c => decide (144 ≤ c) && decide (c ≤ 191))
    else if 241 ≤ b ∧ b ≤ 243 then validUtf8Go rest 3 isCont
    else if b = 244 then validUtf8Go rest 3 (fun c => decide (128 ≤ c) && decide (c ≤ 143))
    else false
  | c :: rest, n + 1, first =>
    if first c then validUtf8Go rest n isCont else false

/-- The validity check performed by `String::from_utf8`. -/
def validUtf8 (s : List Nat) : Bool := validUtf8Go s 0 isCont

/-- Parse one fixed-stride record slice into its span and packed CountSet,
as the record-decoding closure of `read_dict` does. -/
def parseRecord (chunk : List Nat) : OffsetLength × CountSet :=
  ((fromLeBytes (chunk.take USIZE), fromLeBytes ((chunk.drop USIZE).take USIZE)),
   ⟨(chunk.drop (USIZE * 2)).take COUNT_SET_SIZE⟩)

/-- The record-decoding map of `read_dict`: slice the buffer at each stride
multiple and parse each slice independently. -/
def parseRecords (buf : List Nat) (n : Nat) : List (OffsetLength × CountSet) :=
  (List.range n).map (fun i =>
    parseRecord ((buf.drop (i * WORD_COUNT_STRIDE)).take WORD_COUNT_STRIDE))

/-- `read_dict` from `format.rs`. The record-buffer byte count
`word_count_length * WORD_COUNT_STRIDE` is taken in unbounded Nat here,
whereas the source computes it in `usize`, which wraps (release) or panics
(debug) once the declared count reaches `2^64 / 29`; theorems about the
record read therefore carry the side condition that this product is below
`2^64`, the domain on which the model and the program agree. -/
def read_dict (reader : ByteStream) : Except ReadError Dictionary :=
  match readExact reader 4 with
  | .error e => .error (.IoError e)
  | .ok (magic, r1) =>
    if magic ≠ [68, 73, 67, 84] then .error .FormatError
    else
      match readExact r1 4 with
      | .error e => .error (.IoError e)
      | .ok (version, r2) =>
        if fromLeBytes version ≠ 1 then .error .FormatError
        else
          match readExact r2 USIZE with
          | .error e => .error (.IoError e)
          | .ok (wcl, r3) =>
            let word_count_length := fromLeBytes wcl
            match readExact r3 USIZE with
            | .error e => .error (.IoError e)
            | .ok (sl, r4) =>
              let str_length := fromLeBytes sl
              match readExact r4 str_length with
              | .error e => .error (.IoError e)
              | .ok (word_string, r5) =>
                if ¬ validUtf8 word_string then .error .FormatError
                else
                  match readExact r5 (word_count_length * WORD_COUNT_STRIDE) with
                  | .error e =>
                    if e.kind = .unexpectedEof then .error .FormatError
                    else .error (.IoError e)
                  | .ok (buf, _) =>
                    .ok (Dictionary.from_raw_parts word_string
                      (parseRecords buf word_count_length))

/-- Serialize one span map entry: offset, length, packed bytes. -/
def serRecord (p : OffsetLength × CountSet) : List Nat :=
  toLeBytes USIZE p.1.1 ++ toLeBytes USIZE p.1.2 ++ p.2.data

/-- Serialize the span map entries in iteration order. -/
def serRecords : List (OffsetLength × CountSet) → List Nat
  | [] => []
  | p :: rest => serRecord p ++ serRecords rest

/-- `write_dict` from `format.rs`, as the byte sequence it emits: magic,
version, record count, string length, string bytes, then the records. -/
def write_dict (d : Dictionary) : List Nat :=
  [68, 73, 67, 84] ++ toLeBytes 4 1 ++ toLeBytes USIZE d.len ++
    toLeBytes USIZE d.word_string.length ++ d.word_string ++
    serRecords d.word_count

/-- Invariant of dictionaries built by `new` plus `add`: every span fits into
the backing string, and a zero-length span can only belong to the empty word,
which is then in the existence set. -/
def KeyInv (d : Dictionary) : Prop :=
  (∀ p ∈ d.word_count, p.1.1 + p.1.2 ≤ d.word_string.length) ∧
  (∀ p ∈ d.word_count, p.1.2 = 0 → ([] : List Nat) ∈ d.word_set)

/-- Invariant needed for serialization: every span fits into the backing
string, every packed CountSet holds exactly 13 bytes, and the backing string
is pure ASCII. -/
def SerInv (d : Dictionary) : Prop :=
  (∀ p ∈ d.word_count, p.1.1 + p.1.2 ≤ d.word_string.length ∧ p.2.data.length = 13) ∧
  (∀ b ∈ d.word_string, b < 128)

/-- The header `write_dict` emits for a given record count and word-string
byte length: magic, version 1, and the two length fields. -/
def dictHeader (cnt slen : Nat) : List Nat :=
  [68, 73, 67, 84] ++ toLeBytes 4 1 ++ toLeBytes USIZE cnt ++ toLeBytes USIZE slen

/-! ## Theorems -/

theorem zip_replicate_zero_all (xs : List Nat) (n : Nat) :
    ((xs.zip (List.replicate n 0)).all (fun p => decide (p.2 ≤ p.1))) = true := by
  induction xs generalizing n with
  | nil => rfl
  | cons x xs ih =>
    cases n with
    | zero => rfl
    | succ n => simp [List.replicate_succ, ih]

/-- C3: `from_word` validates ASCII first, then alphabetic, so the errors are
mutually exclusive: any input with a byte ≥ 0x80 fails with `NotAscii` even
when it also contains non-letter ASCII bytes, and any all-ASCII input with a
non-letter byte fails with `NotAlphabetic` regardless of letter counts. -/
theorem C3_validation_order (w : List Nat) :
    ((∃ b ∈ w, 128 ≤ b) → CountSet.from_word w = .error .NotAscii) ∧
    ((∀ b ∈ w, b < 128) → (∃ b ∈ w, isAsciiAlphabetic b = false) →
      CountSet.from_word w = .error .NotAlphabetic) := by
  constructor
  · rintro ⟨b, hb, h128⟩
    have hall : w.all (fun b => decide (b < 128)) = false := by
      simp only [List.all_eq_false]
      exact ⟨b, hb, by simpa using h128⟩
    simp [CountSet.from_word, hall]
  · rintro hascii ⟨b, hb, hfalse⟩
    have hall : w.all (fun b => decide (b < 128)) = true := by
      simp only [List.all_eq_true]
      intro x hx
      simpa using hascii x hx
    have halpha : w.all isAsciiAlphabetic = false := by
      simp only [List.all_eq_false]
      exact ⟨b, hb, by simp [hfalse]⟩
    simp [CountSet.from_word, hall, halpha]

theorem C3_validation_order_witness :
    CountSet.from_word [200, 49] = .error .NotAscii ∧
    CountSet.from_word [97, 49] = .error .NotAlphabetic :=
  ⟨(C3_validation_order [200, 49]).1 ⟨200, by decide, by decide⟩,
   (C3_validation_order [97, 49]).2 (by decide) ⟨49, by decide, by decide⟩⟩

/-- C10: encoding the empty string succeeds and yields the all-zero CountSet,
which is contained in every CountSet, so an empty letters string is a valid
search query rather than an error. -/
theorem C10_empty_word :
    CountSet.from_word [] = .ok ⟨List.replicate 13 0⟩ ∧
    ∀ s : CountSet, s.contains ⟨List.replicate 13 0⟩ = true := by
  constructor
  · rfl
  · intro s
    have hz : CountSet.iterList ⟨List.replicate 13 0⟩ = List.replicate 26 0 := by rfl
    unfold CountSet.contains
    rw [hz]
    exact zip_replicate_zero_all _ _

/-- C5: `contains` returns true iff for every letter index `i < 26` the
decoded count of `self` at `i` is at least the decoded count of `other`. -/
theorem C5_contains_iff (a b : CountSet) :
    a.contains b = true ↔ ∀ i, i < 26 → b.index_unchecked i ≤ a.index_unchecked i := by
  unfold CountSet.contains CountSet.iterList
  rw [List.zip_map']
  simp [List.all_eq_true, List.mem_range]

/-- C9: the nibble layout `byte_index = i / 2`, `shift = (i % 2) * 4` is
correct: for every letter index `i < 26`, encoding the one-letter word for
letter `i` and decoding yields exactly 1 at position `i` and 0 elsewhere. -/
theorem C9_packing : ∀ i, i < 26 →
    (CountSet.from_word [65 + i]).toOption.map CountSet.iterList =
      some ((List.range 26).map (fun j => if j = i then 1 else 0)) := by
  decide

theorem C9_packing_witness :
    (CountSet.from_word [65]).toOption.map CountSet.iterList =
      some ((List.range 26).map (fun j => if j = 0 then 1 else 0)) :=
  C9_packing 0 (by decide)

/-- C1 counterexample: adding the non-alphabetic word "a1" to a fresh
dictionary returns the encoder error, yet the backing word string has been
mutated, refuting the claim that the dictionary is left entirely unmutated. -/
theorem C1_counterexample :
    (Dictionary.new.add [97, 49]).2 = .error .NotAlphabetic ∧
    (Dictionary.new.add [97, 49]).1.word_string ≠ Dictionary.new.word_string := by
  constructor
  · rfl
  · decide

/-- C1 (amended): when the encoder fails on a word not in the existence set,
`add` returns the encoder error unchanged and leaves the span map, the
existence set and `len()` unchanged, but the word's bytes have already been
appended to the backing word string. -/
theorem C1_amended (d : Dictionary) (w : List Nat) (e : CountError)
    (hw : w ∉ d.word_set) (he : CountSet.from_word w = .error e) :
    (d.add w).2 = .error e ∧
    (d.add w).1.word_count = d.word_count ∧
    (d.add w).1.word_set = d.word_set ∧
    (d.add w).1.len = d.len ∧
    (d.add w).1.word_string = d.word_string ++ w := by
  simp [Dictionary.add, hw, he, Dictionary.len]

theorem C1_amended_witness :
    (Dictionary.new.add [97, 49]).2 = .error .NotAlphabetic ∧
    (Dictionary.new.add [97, 49]).1.word_count = Dictionary.new.word_count ∧
    (Dictionary.new.add [97, 49]).1.word_set = Dictionary.new.word_set ∧
    (Dictionary.new.add [97, 49]).1.len = Dictionary.new.len ∧
    (Dictionary.new.add [97, 49]).1.word_string = Dictionary.new.word_string ++ [97, 49] :=
  C1_amended Dictionary.new [97, 49] .NotAlphabetic (by decide) rfl

theorem getD_set_self (l : List Nat) (i v : Nat) (h : i < l.length) :
    (l.set i v).getD i 0 = v := by
  simp [List.getD_eq_getElem?_getD, List.getElem?_set_self h]

theorem getD_set_ne (l : List Nat) (i j v : Nat) (h : i ≠ j) :
    (l.set i v).getD j 0 = l.getD j 0 := by
  simp [List.getD_eq_getElem?_getD, List.getElem?_set_ne h]

theorem getD_replicate_zero (n i : Nat) : (List.replicate n (0:Nat)).getD i 0 = 0 := by
  induction n generalizing i with
  | zero => cases i <;> rfl
  | succ n ih =>
    cases i with
    | zero => rfl
    | succ i => simp [List.replicate_succ, ih i]

theorem mem_getD {l : List Nat} {a : Nat} (h : a ∈ l) :
    ∃ j, j < l.length ∧ l.getD j 0 = a := by
  obtain ⟨j, hj, rfl⟩ := List.mem_iff_getElem.mp h
  exact ⟨j, hj, by simp [List.getD_eq_getElem?_getD, List.getElem?_eq_getElem hj]⟩

theorem upper_of_alpha {b : Nat} (h : isAsciiAlphabetic b = true) :
    65 ≤ toAsciiUppercase b ∧ toAsciiUppercase b ≤ 90 := by
  simp [isAsciiAlphabetic] at h
  unfold toAsciiUppercase
  split <;> omega

theorem letterCount_nil (i : Nat) : letterCount [] i = 0 := rfl

theorem letterCount_cons (b : Nat) (rest : List Nat) (i : Nat) :
    letterCount (b :: rest) i =
      letterCount rest i + (if toAsciiUppercase b = 65 + i then 1 else 0) := by
  simp [letterCount, List.countP_cons]

theorem countLoop_ok (w : List Nat) : ∀ count : List Nat, count.length = 26 →
    (∀ b ∈ w, isAsciiAlphabetic b = true) →
    (∀ i, i < 26 → count.getD i 0 + letterCount w i ≤ 255) →
    ∃ res, countLoop w count = some res ∧ res.length = 26 ∧
      ∀ i, i < 26 → res.getD i 0 = count.getD i 0 + letterCount w i := by
  induction w with
  | nil =>
    intro count hlen _ _
    exact ⟨count, rfl, hlen, fun i _ => by simp [letterCount_nil]⟩
  | cons b rest ih =>
    intro count hlen halpha hbound
    have hb : isAsciiAlphabetic b = true := halpha b (by simp)
    obtain ⟨hub, hub2⟩ := upper_of_alpha hb
    have hi0 : toAsciiUppercase b - 65 < 26 := by omega
    have hcons : ∀ i, letterCount (b :: rest) i =
        letterCount rest i + (if toAsciiUppercase b - 65 = i then 1 else 0) := by
      intro i
      rw [letterCount_cons]
      congr 1
      split <;> split <;> omega
    have hle : count.getD (toAsciiUppercase b - 65) 0 + 1 ≤ 255 := by
      have h := hbound _ hi0
      rw [hcons, if_pos rfl] at h
      omega
    have hbound' : ∀ i, i < 26 →
        (count.set (toAsciiUppercase b - 65) (count.getD (toAsciiUppercase b - 65) 0 + 1)).getD i 0
          + letterCount rest i ≤ 255 := by
      intro i hi
      by_cases hij : toAsciiUppercase b - 65 = i
      · subst hij
        rw [getD_set_self _ _ _ (by omega)]
        have h := hbound _ hi0
        rw [hcons, if_pos rfl] at h
        omega
      · rw [getD_set_ne _ _ _ _ hij]
        have h := hbound _ hi
        rw [hcons, if_neg hij] at h
        omega
    obtain ⟨res, hres, hlen', hgetD⟩ :=
      ih _ (by simp [hlen]) (fun x hx => halpha x (by simp [hx])) hbound'
    refine ⟨res, ?_, hlen', ?_⟩
    · simp only [countLoop]
      rw [if_pos hle]
      exact hres
    · intro i hi
      rw [hgetD i hi, hcons i]
      by_cases hij : toAsciiUppercase b - 65 = i
      · subst hij
        rw [getD_set_self _ _ _ (by omega), if_pos rfl]
        omega
      · rw [getD_set_ne _ _ _ _ hij, if_neg hij]
        omega

theorem countLoop_none (w : List Nat) : ∀ count : List Nat, count.length = 26 →
    (∀ b ∈ w, isAsciiAlphabetic b = true) →
    (∀ i, i < 26 → count.getD i 0 ≤ 255) →
    (∃ i, i < 26 ∧ 255 < count.getD i 0 + letterCount w i) →
    countLoop w count = none := by
  induction w with
  | nil =>
    rintro count _ _ hb ⟨i, hi, hgt⟩
    have := hb i hi
    rw [letterCount_nil] at hgt
    omega
  | cons b rest ih =>
    rintro count hlen halpha hb ⟨i, hi, hgt⟩
    have hab : isAsciiAlphabetic b = true := halpha b (by simp)
    obtain ⟨hub, hub2⟩ := upper_of_alpha hab
    have hi0 : toAsciiUppercase b - 65 < 26 := by omega
    have hcons : ∀ j, letterCount (b :: rest) j =
        letterCount rest j + (if toAsciiUppercase b - 65 = j then 1 else 0) := by
      intro j
      rw [letterCount_cons]
      congr 1
      split <;> split <;> omega
    by_cases hle : count.getD (toAsciiUppercase b - 65) 0 + 1 ≤ 255
    · simp only [countLoop]
      rw [if_pos hle]
      apply ih _ (by simp [hlen]) (fun x hx => halpha x (by simp [hx]))
      · intro j hj
        by_cases hij : toAsciiUppercase b - 65 = j
        · subst hij
          rw [getD_set_self _ _ _ (by omega)]
          omega
        · rw [getD_set_ne _ _ _ _ hij]
          exact hb j hj
      · refine ⟨i, hi, ?_⟩
        rw [hcons] at hgt
        by_cases hij : toAsciiUppercase b - 65 = i
        · subst hij
          rw [getD_set_self _ _ _ (by omega)]
          rw [if_pos rfl] at hgt
          omega
        · rw [getD_set_ne _ _ _ _ hij]
          rw [if_neg hij] at hgt
          omega
    · simp only [countLoop]
      rw [if_neg hle]

theorem packLoop_ok (arr : List Nat) : ∀ i count, (∀ c ∈ arr, c ≤ 15) →
    ∃ res, packLoop arr i count = .ok res := by
  induction arr with
  | nil => exact fun i count _ => ⟨count, rfl⟩
  | cons c rest ih =>
    intro i count hall
    have hc : c ≤ 15 := hall c (by simp)
    simp only [packLoop]
    rw [if_neg (by omega)]
    exact ih _ _ (fun x hx => hall x (by simp [hx]))

theorem packLoop_overflow (arr : List Nat) : ∀ i count,
    (∃ j, j < arr.length ∧ 15 < arr.getD j 0) →
    packLoop arr i count = .error .CountOverflow := by
  induction arr with
  | nil =>
    rintro i count ⟨j, hj, _⟩
    simp at hj
  | cons c rest ih =>
    rintro i count ⟨j, hj, hgt⟩
    simp only [packLoop]
    by_cases hc : c > 15
    · rw [if_pos hc]
    · rw [if_neg hc]
      apply ih
      cases j with
      | zero =>
        rw [List.getD_cons_zero] at hgt
        omega
      | succ j =>
        refine ⟨j, by simpa using hj, ?_⟩
        rw [List.getD_cons_succ] at hgt
        exact hgt

theorem from_word_ok_of_bounded (w : List Nat)
    (hascii : ∀ b ∈ w, b < 128) (halpha : ∀ b ∈ w, isAsciiAlphabetic b = true)
    (hbound : ∀ i, i < 26 → letterCount w i ≤ 15) :
    ∃ s, CountSet.from_word w = .ok s := by
  have hall : w.all (fun b => decide (b < 128)) = true := by
    simp only [List.all_eq_true]
    intro x hx
    simpa using hascii x hx
  have halpha' : w.all isAsciiAlphabetic = true := by
    simp only [List.all_eq_true]
    exact halpha
  obtain ⟨res, hres, hlen, hgetD⟩ := countLoop_ok w (List.replicate 26 0) (by simp)
      halpha (fun i hi => by rw [getD_replicate_zero]; have := hbound i hi; omega)
  have hres15 : ∀ c ∈ res, c ≤ 15 := by
    intro c hc
    obtain ⟨j, hj, heq⟩ := mem_getD hc
    rw [hlen] at hj
    have := hgetD j hj
    rw [getD_replicate_zero] at this
    have := hbound j hj
    omega
  obtain ⟨pres, hpres⟩ := packLoop_ok res 0 (List.replicate 13 0) hres15
  refine ⟨⟨pres⟩, ?_⟩
  unfold CountSet.from_word CountSet.tryFrom26
  rw [if_neg (by simp [hall]), if_neg (by simp [halpha']), hres]
  show Except.map CountSet.mk (packLoop res 0 (List.replicate 13 0)) = Except.ok ⟨pres⟩
  rw [hpres]
  rfl

theorem from_word_overflow (w : List Nat)
    (halpha : ∀ b ∈ w, isAsciiAlphabetic b = true)
    (h16 : ∃ i, i < 26 ∧ 16 ≤ letterCount w i) :
    CountSet.from_word w = .error .CountOverflow := by
  have hascii : ∀ b ∈ w, b < 128 := by
    intro b hb
    have := halpha b hb
    simp [isAsciiAlphabetic] at this
    omega
  have hall : w.all (fun b => decide (b < 128)) = true := by
    simp only [List.all_eq_true]
    intro x hx
    simpa using hascii x hx
  have halpha' : w.all isAsciiAlphabetic = true := by
    simp only [List.all_eq_true]
    exact halpha
  unfold CountSet.from_word CountSet.tryFrom26
  rw [if_neg (by simp [hall]), if_neg (by simp [halpha'])]
  by_cases hbig : ∀ i, i < 26 → letterCount w i ≤ 255
  · obtain ⟨res, hres, hlen, hgetD⟩ := countLoop_ok w (List.replicate 26 0) (by simp)
        halpha (fun i hi => by rw [getD_replicate_zero]; have := hbig i hi; omega)
    rw [hres]
    obtain ⟨i, hi, hcnt⟩ := h16
    show Except.map CountSet.mk (packLoop res 0 (List.replicate 13 0)) =
      Except.error CountError.CountOverflow
    rw [packLoop_overflow res 0 (List.replicate 13 0)
      ⟨i, by omega, by rw [hgetD i hi, getD_replicate_zero]; omega⟩]
    rfl
  · push_neg at hbig
    obtain ⟨i, hi, hcnt⟩ := hbig
    rw [countLoop_none w (List.replicate 26 0) (by simp)
      halpha (fun j hj => by rw [getD_replicate_zero]; omega)
      ⟨i, hi, by rw [getD_replicate_zero]; omega⟩]

/-- C4: for an all-ASCII all-alphabetic word, `from_word` succeeds when every
letter occurs (after uppercase folding) at most 15 times, and fails with
`CountOverflow` when some letter occurs 16 or more times; in particular 15
copies of one letter encode successfully and 16 copies fail. -/
theorem C4_overflow_boundary (w : List Nat)
    (hascii : ∀ b ∈ w, b < 128) (halpha : ∀ b ∈ w, isAsciiAlphabetic b = true) :
    ((∀ i, i < 26 → letterCount w i ≤ 15) → ∃ s, CountSet.from_word w = .ok s) ∧
    ((∃ i, i < 26 ∧ 16 ≤ letterCount w i) → CountSet.from_word w = .error .CountOverflow) :=
  ⟨fun h => from_word_ok_of_bounded w hascii halpha h,
   fun h => from_word_overflow w halpha h⟩

theorem C4_overflow_boundary_witness :
    (∃ s, CountSet.from_word (List.replicate 15 97) = .ok s) ∧
    CountSet.from_word (List.replicate 16 97) = .error .CountOverflow :=
  ⟨(C4_overflow_boundary (List.replicate 15 97) (by decide) (by decide)).1 (by decide),
   (C4_overflow_boundary (List.replicate 16 97) (by decide) (by decide)).2 ⟨0, by decide, by decide⟩⟩

theorem add_mem_noop (d : Dictionary) (w : List Nat) (h : w ∈ d.word_set) :
    d.add w = (d, .ok ()) := by
  simp [Dictionary.add, h]

theorem add_fresh (d : Dictionary) (w : List Nat) (s : CountSet)
    (hw : w ∉ d.word_set) (hok : CountSet.from_word w = .ok s) (hinv : KeyInv d) :
    d.add w =
      ({ word_string := d.word_string ++ w,
         word_count := d.word_count ++ [((d.word_string.length, w.length), s)],
         word_set := d.word_set ++ [w] }, .ok ()) := by
  have hfresh : (d.word_string.length, w.length) ∉ d.word_count.map Prod.fst := by
    intro hmem
    obtain ⟨p, hp, hpk⟩ := List.mem_map.mp hmem
    have h1 := hinv.1 p hp
    rw [hpk] at h1
    have hw0 : w.length = 0 := by omega
    have hwnil : w = [] := List.length_eq_zero.mp hw0
    have := hinv.2 p hp (by rw [hpk]; exact hw0)
    rw [hwnil] at hw
    exact hw this
  simp [Dictionary.add, hw, hok, mapInsert, hfresh]

theorem KeyInv_new : KeyInv Dictionary.new := by
  constructor <;> intro p hp <;> simp [Dictionary.new] at hp

theorem KeyInv_add (d : Dictionary) (w : List Nat) (s : CountSet)
    (hok : CountSet.from_word w = .ok s) (hinv : KeyInv d) :
    KeyInv (d.add w).1 := by
  by_cases hw : w ∈ d.word_set
  · rw [add_mem_noop d w hw]
    exact hinv
  · rw [add_fresh d w s hw hok hinv]
    constructor
    · intro p hp
      simp only [List.mem_append, List.mem_singleton] at hp
      rcases hp with hp | hp
      · have := hinv.1 p hp
        simp [List.length_append]
        omega
      · subst hp
        simp [List.length_append]
    · intro p hp hz
      simp only [List.mem_append, List.mem_singleton] at hp
      rcases hp with hp | hp
      · have := hinv.2 p hp hz
        simp [this]
      · subst hp
        simp at hz
        simp [hz]

theorem addSeq_append (d : Dictionary) (ws ms : List (List Nat)) :
    addSeq d (ws ++ ms) = addSeq (addSeq d ws) ms := by
  induction ws generalizing d with
  | nil => rfl
  | cons w ws ih => simp [addSeq, ih]

theorem addSeq_distinct (ws : List (List Nat)) : ∀ d : Dictionary, KeyInv d →
    ws.Nodup → (∀ w ∈ ws, w ∉ d.word_set) →
    (∀ w ∈ ws, ∃ s, CountSet.from_word w = .ok s) →
    (addSeq d ws).word_set = d.word_set ++ ws ∧
    (addSeq d ws).word_count.length = d.word_count.length + ws.length ∧
    KeyInv (addSeq d ws) := by
  induction ws with
  | nil =>
    intro d hinv _ _ _
    exact ⟨by simp [addSeq], by simp [addSeq], hinv⟩
  | cons w ws ih =>
    intro d hinv hnodup hfresh hvalid
    obtain ⟨s, hs⟩ := hvalid w (by simp)
    have hw : w ∉ d.word_set := hfresh w (by simp)
    have hstep := add_fresh d w s hw hs hinv
    have hinv' : KeyInv (d.add w).1 := KeyInv_add d w s hs hinv
    have hset : (d.add w).1.word_set = d.word_set ++ [w] := by rw [hstep]
    have hcnt : (d.add w).1.word_count =
        d.word_count ++ [((d.word_string.length, w.length), s)] := by rw [hstep]
    have hseq : addSeq d (w :: ws) = addSeq (d.add w).1 ws := rfl
    obtain ⟨h1, h2, h3⟩ := ih (d.add w).1 hinv' (List.nodup_cons.mp hnodup).2
      (fun x hx => by
        rw [hset]
        simp only [List.mem_append, List.mem_singleton]
        rintro (hmem | rfl)
        · exact hfresh x (by simp [hx]) hmem
        · exact (List.nodup_cons.mp hnodup).1 hx)
      (fun x hx => hvalid x (by simp [hx]))
    refine ⟨?_, ?_, by rw [hseq]; exact h3⟩
    · rw [hseq, h1, hset]
      simp
    · rw [hseq, h2, hcnt]
      simp [List.length_append]
      omega

theorem addSeq_all_mem (ms : List (List Nat)) : ∀ d : Dictionary,
    (∀ m ∈ ms, m ∈ d.word_set) → addSeq d ms = d := by
  induction ms with
  | nil => intro d _; rfl
  | cons m ms ih =>
    intro d hmem
    have hstep : addSeq d (m :: ms) = addSeq (d.add m).1 ms := rfl
    rw [hstep, add_mem_noop d m (hmem m (by simp))]
    exact ih d (fun x hx => hmem x (by simp [hx]))

/-- C8: starting from `new()`, after adding `N` distinct valid words followed
by `M` adds of already-present words, `len()` equals `N`; adding a word that
is already present is a no-op that leaves the dictionary unchanged. -/
theorem C8_dedup (ws ms : List (List Nat))
    (hnodup : ws.Nodup)
    (hvalid : ∀ w ∈ ws, ∃ s, CountSet.from_word w = .ok s)
    (hdup : ∀ m ∈ ms, m ∈ ws) :
    (addSeq Dictionary.new (ws ++ ms)).len = ws.length ∧
    (∀ d : Dictionary, ∀ w ∈ d.word_set, d.add w = (d, .ok ())) := by
  obtain ⟨h1, h2, h3⟩ := addSeq_distinct ws Dictionary.new KeyInv_new hnodup
    (fun w _ => by simp [Dictionary.new]) hvalid
  have hms : addSeq (addSeq Dictionary.new ws) ms = addSeq Dictionary.new ws :=
    addSeq_all_mem ms _ (fun m hm => by
      rw [h1]
      simp [Dictionary.new, hdup m hm])
  rw [addSeq_append, hms, Dictionary.len, h2]
  exact ⟨by simp [Dictionary.new], fun d w hw => add_mem_noop d w hw⟩

theorem C8_dedup_witness :
    (addSeq Dictionary.new ([[97], [98]] ++ [[97], [98], [97]])).len = 2 ∧
    (∀ d : Dictionary, ∀ w ∈ d.word_set, d.add w = (d, .ok ())) :=
  C8_dedup [[97], [98]] [[97], [98], [97]] (by decide)
    (by
      intro w hw
      simp only [List.mem_cons, List.not_mem_nil, or_false] at hw
      rcases hw with rfl | rfl
      · exact ⟨⟨[1, 0, 0, 0, 0, 0, 0, 0, 0, 0, 0, 0, 0]⟩, rfl⟩
      · exact ⟨⟨[16, 0, 0, 0, 0, 0, 0, 0, 0, 0, 0, 0, 0]⟩, rfl⟩)
    (by decide)

/-- C7 (amended): a dictionary built by `from_raw_parts` (as `read_dict`
builds it) has an empty existence set, so adding a word whose text is already
present in the loaded content is not detected as a duplicate: it returns Ok,
appends the word to the backing string, and increases `len()` by one provided
the fresh span key `(loaded string length, word length)` does not already
occur in the loaded map (for a dictionary round-tripped from `new()` plus
valid adds this can only fail for the empty word); words inserted after the
reload are deduplicated against each other. -/
theorem C7_amended (s0 : List Nat) (m : List (OffsetLength × CountSet))
    (w : List Nat) (cs : CountSet)
    (hok : CountSet.from_word w = .ok cs)
    (_hpres : ∃ p ∈ m, (s0.drop p.1.1).take p.1.2 = w)
    (hkey : (s0.length, w.length) ∉ m.map Prod.fst) :
    ((Dictionary.from_raw_parts s0 m).add w).2 = .ok () ∧
    ((Dictionary.from_raw_parts s0 m).add w).1.word_string = s0 ++ w ∧
    ((Dictionary.from_raw_parts s0 m).add w).1.len =
      (Dictionary.from_raw_parts s0 m).len + 1 ∧
    ((Dictionary.from_raw_parts s0 m).add w).1.add w =
      (((Dictionary.from_raw_parts s0 m).add w).1, .ok ()) := by
  have hstep : (Dictionary.from_raw_parts s0 m).add w =
      (⟨s0 ++ w, m ++ [((s0.length, w.length), cs)], [w]⟩, .ok ()) := by
    simp [Dictionary.add, Dictionary.from_raw_parts, hok, mapInsert, hkey]
  refine ⟨by rw [hstep], by rw [hstep],
    by rw [hstep]; simp [Dictionary.len, Dictionary.from_raw_parts], ?_⟩
  rw [hstep]
  exact add_mem_noop _ _ (by simp)

theorem C7_amended_witness :
    ((Dictionary.from_raw_parts [97] [((0, 1), ⟨[1, 0, 0, 0, 0, 0, 0, 0, 0, 0, 0, 0, 0]⟩)]).add [97]).2 = .ok () ∧
    ((Dictionary.from_raw_parts [97] [((0, 1), ⟨[1, 0, 0, 0, 0, 0, 0, 0, 0, 0, 0, 0, 0]⟩)]).add [97]).1.word_string = [97] ++ [97] ∧
    ((Dictionary.from_raw_parts [97] [((0, 1), ⟨[1, 0, 0, 0, 0, 0, 0, 0, 0, 0, 0, 0, 0]⟩)]).add [97]).1.len =
      (Dictionary.from_raw_parts [97] [((0, 1), ⟨[1, 0, 0, 0, 0, 0, 0, 0, 0, 0, 0, 0, 0]⟩)]).len + 1 ∧
    ((Dictionary.from_raw_parts [97] [((0, 1), ⟨[1, 0, 0, 0, 0, 0, 0, 0, 0, 0, 0, 0, 0]⟩)]).add [97]).1.add [97] =
      (((Dictionary.from_raw_parts [97] [((0, 1), ⟨[1, 0, 0, 0, 0, 0, 0, 0, 0, 0, 0, 0, 0]⟩)]).add [97]).1, .ok ()) :=
  C7_amended [97] [((0, 1), ⟨[1, 0, 0, 0, 0, 0, 0, 0, 0, 0, 0, 0, 0]⟩)] [97]
    ⟨[1, 0, 0, 0, 0, 0, 0, 0, 0, 0, 0, 0, 0]⟩ rfl
    ⟨((0, 1), ⟨[1, 0, 0, 0, 0, 0, 0, 0, 0, 0, 0, 0, 0]⟩), by simp, rfl⟩
    (by decide)

/-- C7 counterexample: write then reload a dictionary holding "a" and the
empty word. The empty word is present in the loaded content (span `(1, 0)`),
but re-adding it inserts at the very key `(1, 0)` again, replacing the
existing entry: `len()` stays 2 instead of increasing by one as claimed. -/
theorem C7_counterexample :
    read_dict ⟨write_dict (addSeq Dictionary.new [[97], []]), none⟩ =
      .ok ⟨[97], [((0, 1), ⟨[1, 0, 0, 0, 0, 0, 0, 0, 0, 0, 0, 0, 0]⟩),
                  ((1, 0), ⟨[0, 0, 0, 0, 0, 0, 0, 0, 0, 0, 0, 0, 0]⟩)], []⟩ ∧
    ((1, 0), (⟨[0, 0, 0, 0, 0, 0, 0, 0, 0, 0, 0, 0, 0]⟩ : CountSet)) ∈
      (⟨[97], [((0, 1), ⟨[1, 0, 0, 0, 0, 0, 0, 0, 0, 0, 0, 0, 0]⟩),
               ((1, 0), ⟨[0, 0, 0, 0, 0, 0, 0, 0, 0, 0, 0, 0, 0]⟩)], []⟩ : Dictionary).word_count ∧
    (List.take 0 (List.drop 1 [97]) : List Nat) = [] ∧
    (Dictionary.add ⟨[97], [((0, 1), ⟨[1, 0, 0, 0, 0, 0, 0, 0, 0, 0, 0, 0, 0]⟩),
                            ((1, 0), ⟨[0, 0, 0, 0, 0, 0, 0, 0, 0, 0, 0, 0, 0]⟩)], []⟩ []).1.len = 2 := by
  refine ⟨rfl, by simp, rfl, rfl⟩

theorem toLeBytes_length (k n : Nat) : (toLeBytes k n).length = k := by
  induction k generalizing n with
  | zero => rfl
  | succ k ih => simp [toLeBytes, ih]

theorem fromLeBytes_cons (b : Nat) (bs : List Nat) :
    fromLeBytes (b :: bs) = b + 256 * fromLeBytes bs := rfl

theorem fromLe_toLe (k n : Nat) (h : n < 256 ^ k) :
    fromLeBytes (toLeBytes k n) = n := by
  induction k generalizing n with
  | zero =>
    simp [toLeBytes, fromLeBytes]
    omega
  | succ k ih =>
    have hdiv : n / 256 < 256 ^ k := by
      rw [Nat.div_lt_iff_lt_mul (by norm_num)]
      calc n < 256 ^ (k + 1) := h
        _ = 256 ^ k * 256 := by ring
    rw [toLeBytes, fromLeBytes_cons, ih _ hdiv]
    omega

theorem readExact_append (xs ys : List Nat) (t : Option IoErr) (n : Nat)
    (h : xs.length = n) :
    readExact ⟨xs ++ ys, t⟩ n = .ok (xs, ⟨ys, t⟩) := by
  subst h
  unfold readExact
  rw [if_pos (by simp)]
  simp [List.take_left, List.drop_left]

theorem readExact_short (xs : List Nat) (t : Option IoErr) (n : Nat)
    (h : xs.length < n) :
    readExact ⟨xs, t⟩ n = .error (t.getD ⟨.unexpectedEof⟩) := by
  unfold readExact
  rw [if_neg (by simp; omega)]

theorem validUtf8Go_ascii (s : List Nat) (h : ∀ b ∈ s, b < 128) (f : Nat → Bool) :
    validUtf8Go s 0 f = true := by
  induction s generalizing f with
  | nil => rfl
  | cons b rest ih =>
    have hb : b < 128 := h b (by simp)
    rw [validUtf8Go, if_pos (by omega : b ≤ 127)]
    exact ih (fun x hx => h x (by simp [hx])) isCont

theorem validUtf8_ascii (s : List Nat) (h : ∀ b ∈ s, b < 128) : validUtf8 s = true :=
  validUtf8Go_ascii s h isCont

theorem serRecord_length (p : OffsetLength × CountSet) (h : p.2.data.length = 13) :
    (serRecord p).length = WORD_COUNT_STRIDE := by
  unfold serRecord
  rw [List.length_append, List.length_append, toLeBytes_length, toLeBytes_length, h]
  rfl

theorem serRecords_length (m : List (OffsetLength × CountSet))
    (h : ∀ p ∈ m, p.2.data.length = 13) :
    (serRecords m).length = m.length * WORD_COUNT_STRIDE := by
  induction m with
  | nil => rfl
  | cons p rest ih =>
    simp only [serRecords, List.length_append, List.length_cons]
    rw [serRecord_length p (h p (by simp)), ih (fun x hx => h x (by simp [hx]))]
    ring

theorem parseRecord_serRecord (p : OffsetLength × CountSet)
    (h1 : p.1.1 < 2 ^ 64) (h2 : p.1.2 < 2 ^ 64) (h3 : p.2.data.length = 13) :
    parseRecord (serRecord p) = p := by
  have e256 : (256 : Nat) ^ 8 = 2 ^ 64 := by norm_num
  have hU : USIZE = 8 := rfl
  have hC : COUNT_SET_SIZE = 13 := rfl
  unfold parseRecord serRecord
  simp only [hU, hC]
  rw [List.append_assoc]
  rw [List.take_left' (toLeBytes_length 8 p.1.1)]
  rw [List.drop_left' (toLeBytes_length 8 p.1.1)]
  rw [List.take_left' (toLeBytes_length 8 p.1.2)]
  rw [show (8 * 2 : Nat) = 8 + 8 from rfl, ← List.drop_drop]
  rw [List.drop_left' (toLeBytes_length 8 p.1.1)]
  rw [List.drop_left' (toLeBytes_length 8 p.1.2)]
  rw [← h3, List.take_length]
  rw [fromLe_toLe 8 _ (by rw [e256]; exact h1), fromLe_toLe 8 _ (by rw [e256]; exact h2)]

theorem parseRecords_serRecords (m : List (OffsetLength × CountSet))
    (h : ∀ p ∈ m, p.1.1 < 2 ^ 64 ∧ p.1.2 < 2 ^ 64 ∧ p.2.data.length = 13) :
    parseRecords (serRecords m) m.length = m := by
  induction m with
  | nil => rfl
  | cons p rest ih =>
    obtain ⟨h1, h2, h3⟩ := h p (by simp)
    unfold parseRecords
    rw [List.length_cons, List.range_succ_eq_map, List.map_cons, List.map_map]
    have hhead : parseRecord (((serRecords (p :: rest)).drop (0 * WORD_COUNT_STRIDE)).take
        WORD_COUNT_STRIDE) = p := by
      simp only [Nat.zero_mul, List.drop_zero, serRecords]
      rw [List.take_left' (serRecord_length p h3)]
      exact parseRecord_serRecord p h1 h2 h3
    rw [hhead]
    congr 1
    have htail : ∀ i ∈ List.range rest.length,
        ((fun i => parseRecord (((serRecords (p :: rest)).drop (i * WORD_COUNT_STRIDE)).take
            WORD_COUNT_STRIDE)) ∘ Nat.succ) i =
          (fun i => parseRecord (((serRecords rest).drop (i * WORD_COUNT_STRIDE)).take
            WORD_COUNT_STRIDE)) i := by
      intro i _
      simp only [Function.comp_apply, serRecords]
      have harith : Nat.succ i * WORD_COUNT_STRIDE =
          (serRecord p).length + i * WORD_COUNT_STRIDE := by
        rw [serRecord_length p h3, show WORD_COUNT_STRIDE = 29 from rfl]
        omega
      rw [harith, List.drop_append]
    rw [List.map_congr_left htail]
    exact ih (fun x hx => h x (by simp [hx]))

theorem packLoop_length (arr : List Nat) : ∀ i count res,
    packLoop arr i count = .ok res → res.length = count.length := by
  induction arr with
  | nil =>
    intro i count res h
    simp only [packLoop] at h
    cases h
    rfl
  | cons c rest ih =>
    intro i count res h
    simp only [packLoop] at h
    split at h
    · cases h
    · have := ih _ _ _ h
      simpa using this

theorem from_word_data_length {w : List Nat} {s : CountSet}
    (h : CountSet.from_word w = .ok s) : s.data.length = 13 := by
  unfold CountSet.from_word CountSet.tryFrom26 at h
  split at h
  · cases h
  · split at h
    · cases h
    · split at h
      · cases h
      · next count heq =>
        cases hpack : packLoop count 0 (List.replicate 13 0) with
        | error e => rw [hpack] at h; cases h
        | ok res =>
          rw [hpack] at h
          cases h
          have := packLoop_length count 0 (List.replicate 13 0) res hpack
          simpa using this

theorem from_word_ascii {w : List Nat} {s : CountSet}
    (h : CountSet.from_word w = .ok s) : ∀ b ∈ w, b < 128 := by
  unfold CountSet.from_word at h
  split at h
  · cases h
  · next hcond =>
    intro b hb
    rw [not_not] at hcond
    have := List.all_eq_true.mp hcond b hb
    simpa using this

theorem mapInsert_mem {m : List (OffsetLength × CountSet)} {k : OffsetLength}
    {v : CountSet} {q : OffsetLength × CountSet} (h : q ∈ mapInsert m k v) :
    q ∈ m ∨ q = (k, v) := by
  unfold mapInsert at h
  split at h
  · obtain ⟨p, hp, hq⟩ := List.mem_map.mp h
    split at hq
    · right
      exact hq.symm
    · left
      rw [← hq]
      exact hp
  · rcases List.mem_append.mp h with h | h
    · left
      exact h
    · right
      simpa using h

theorem SerInv_new : SerInv Dictionary.new := by
  constructor <;> intro p hp <;> simp [Dictionary.new] at hp

theorem SerInv_add (d : Dictionary) (w : List Nat) (s : CountSet)
    (hok : CountSet.from_word w = .ok s) (hinv : SerInv d) :
    SerInv (d.add w).1 := by
  by_cases hw : w ∈ d.word_set
  · rw [add_mem_noop d w hw]
    exact hinv
  · have hstring : (d.add w).1.word_string = d.word_string ++ w := by
      simp [Dictionary.add, hw, hok]
    have hcount : (d.add w).1.word_count =
        mapInsert d.word_count (d.word_string.length, w.length) s := by
      simp [Dictionary.add, hw, hok]
    constructor
    · intro p hp
      rw [hcount] at hp
      rcases mapInsert_mem hp with hp | rfl
      · obtain ⟨hsum, hlen⟩ := hinv.1 p hp
        refine ⟨?_, hlen⟩
        rw [hstring, List.length_append]
        omega
      · refine ⟨?_, from_word_data_length hok⟩
        rw [hstring, List.length_append]
    · intro b hb
      rw [hstring] at hb
      rcases List.mem_append.mp hb with hb | hb
      · exact hinv.2 b hb
      · exact from_word_ascii hok b hb

theorem SerInv_addSeq (ws : List (List Nat)) : ∀ d : Dictionary, SerInv d →
    (∀ w ∈ ws, ∃ s, CountSet.from_word w = .ok s) → SerInv (addSeq d ws) := by
  induction ws with
  | nil => exact fun d h _ => h
  | cons w ws ih =>
    intro d hinv hvalid
    obtain ⟨s, hs⟩ := hvalid w (by simp)
    exact ih (d.add w).1 (SerInv_add d w s hs hinv) (fun x hx => hvalid x (by simp [hx]))

theorem write_read_roundtrip (d : Dictionary) (hinv : SerInv d)
    (hstr : d.word_string.length < 2 ^ 64) (hcnt : d.word_count.length < 2 ^ 64) :
    read_dict ⟨write_dict d, none⟩ =
      .ok (Dictionary.from_raw_parts d.word_string d.word_count) := by
  have e256 : (256 : Nat) ^ 8 = 2 ^ 64 := by norm_num
  have hlen13 : ∀ p ∈ d.word_count, p.2.data.length = 13 := fun p hp => (hinv.1 p hp).2
  set s := d.word_string with hs
  set m := d.word_count with hm
  have hdata : write_dict d =
      [68, 73, 67, 84] ++ (toLeBytes 4 1 ++ (toLeBytes USIZE m.length ++
        (toLeBytes USIZE s.length ++ (s ++ serRecords m)))) := by
    simp [write_dict, Dictionary.len, List.append_assoc]
  have h1 : readExact ⟨write_dict d, none⟩ 4 = .ok ([68, 73, 67, 84],
      ⟨toLeBytes 4 1 ++ (toLeBytes USIZE m.length ++ (toLeBytes USIZE s.length ++
        (s ++ serRecords m))), none⟩) := by
    rw [hdata]
    exact readExact_append _ _ _ _ rfl
  have h2 : readExact ⟨toLeBytes 4 1 ++ (toLeBytes USIZE m.length ++ (toLeBytes USIZE s.length ++
        (s ++ serRecords m))), none⟩ 4 = .ok (toLeBytes 4 1,
      ⟨toLeBytes USIZE m.length ++ (toLeBytes USIZE s.length ++ (s ++ serRecords m)), none⟩) :=
    readExact_append _ _ _ _ (toLeBytes_length 4 1)
  have h3 : readExact ⟨toLeBytes USIZE m.length ++ (toLeBytes USIZE s.length ++
        (s ++ serRecords m)), none⟩ USIZE = .ok (toLeBytes USIZE m.length,
      ⟨toLeBytes USIZE s.length ++ (s ++ serRecords m), none⟩) :=
    readExact_append _ _ _ _ (toLeBytes_length USIZE _)
  have h4 : readExact ⟨toLeBytes USIZE s.length ++ (s ++ serRecords m), none⟩ USIZE =
      .ok (toLeBytes USIZE s.length, ⟨s ++ serRecords m, none⟩) :=
    readExact_append _ _ _ _ (toLeBytes_length USIZE _)
  have hcm : fromLeBytes (toLeBytes USIZE m.length) = m.length :=
    fromLe_toLe 8 _ (by rw [e256]; exact hcnt)
  have hsl : fromLeBytes (toLeBytes USIZE s.length) = s.length :=
    fromLe_toLe 8 _ (by rw [e256]; exact hstr)
  have h5 : readExact ⟨s ++ serRecords m, none⟩ s.length = .ok (s, ⟨serRecords m, none⟩) :=
    readExact_append _ _ _ _ rfl
  have hutf : validUtf8 s = true := validUtf8_ascii s hinv.2
  have h6 : readExact ⟨serRecords m, none⟩ (m.length * WORD_COUNT_STRIDE) =
      .ok (serRecords m, ⟨[], none⟩) := by
    have h := readExact_append (serRecords m) [] none (m.length * WORD_COUNT_STRIDE)
      (serRecords_length m hlen13)
    simpa using h
  have hparse : parseRecords (serRecords m) m.length = m :=
    parseRecords_serRecords m (fun p hp =>
      ⟨by have h' := (hinv.1 p hp).1; rw [← hs] at h'; omega,
       by have h' := (hinv.1 p hp).1; rw [← hs] at h'; omega, hlen13 p hp⟩)
  have hv : fromLeBytes (toLeBytes 4 1) = 1 := rfl
  simp only [read_dict, h1, h2, h3, h4, hcm, hsl, h5, hutf, h6, hparse, hv]
  simp

/-- C6: for a dictionary built by `new()` and successful adds of valid words,
writing it with `write_dict` and reading the bytes back with `read_dict`
succeeds and restores the backing word string and the span-to-CountSet
mapping (the entry lists are equal, hence equal as sets of pairs). -/
theorem C6_roundtrip (ws : List (List Nat))
    (hvalid : ∀ w ∈ ws, ∃ s, CountSet.from_word w = .ok s)
    (hstr : (addSeq Dictionary.new ws).word_string.length < 2 ^ 64)
    (hcnt : (addSeq Dictionary.new ws).word_count.length < 2 ^ 64) :
    read_dict ⟨write_dict (addSeq Dictionary.new ws), none⟩ =
      .ok (Dictionary.from_raw_parts (addSeq Dictionary.new ws).word_string
        (addSeq Dictionary.new ws).word_count) ∧
    ∀ p : OffsetLength × CountSet,
      p ∈ (Dictionary.from_raw_parts (addSeq Dictionary.new ws).word_string
        (addSeq Dictionary.new ws).word_count).word_count ↔
      p ∈ (addSeq Dictionary.new ws).word_count :=
  ⟨write_read_roundtrip _ (SerInv_addSeq ws Dictionary.new SerInv_new hvalid) hstr hcnt,
   fun _ => Iff.rfl⟩

theorem C6_roundtrip_witness :
    read_dict ⟨write_dict (addSeq Dictionary.new [[97]]), none⟩ =
      .ok (Dictionary.from_raw_parts (addSeq Dictionary.new [[97]]).word_string
        (addSeq Dictionary.new [[97]]).word_count) ∧
    ∀ p : OffsetLength × CountSet,
      p ∈ (Dictionary.from_raw_parts (addSeq Dictionary.new [[97]]).word_string
        (addSeq Dictionary.new [[97]]).word_count).word_count ↔
      p ∈ (addSeq Dictionary.new [[97]]).word_count :=
  C6_roundtrip [[97]]
    (by
      intro w hw
      simp only [List.mem_cons, List.not_mem_nil, or_false] at hw
      subst hw
      exact ⟨⟨[1, 0, 0, 0, 0, 0, 0, 0, 0, 0, 0, 0, 0]⟩, rfl⟩)
    (by decide) (by decide)

/-- C2 counterexample: a stream with valid magic and version whose declared
word-string length (5) exceeds the remaining bytes (2) fails with
`IoError(UnexpectedEof)`, not with the distinct `FormatError` the claim
requires for truncation before the declared word-string length. -/
theorem C2_counterexample :
    read_dict ⟨[68, 73, 67, 84] ++ [1, 0, 0, 0] ++ toLeBytes 8 0 ++ toLeBytes 8 5 ++ [97, 98],
      none⟩ = .error (.IoError ⟨.unexpectedEof⟩) ∧
    (Except.error (ReadError.IoError ⟨.unexpectedEof⟩) : Except ReadError Dictionary) ≠
      .error .FormatError :=
  ⟨rfl, by simp⟩

/-- C2 (amended): for declared counts whose record-buffer byte size
`cnt * WORD_COUNT_STRIDE` stays below `2^64` (beyond it the source's `usize`
product wraps or panics), truncation inside the fixed-stride record region is
turned into the distinct `FormatError`, and genuine non-end-of-stream
failures there propagate as `IoError` unchanged — but truncation inside the
declared word-string region surfaces as `IoError(UnexpectedEof)`, not
`FormatError`. -/
theorem C2_amended (cnt slen : Nat) (s frag : List Nat) (e : IoErr)
    (hcnt : cnt < 2 ^ 64) (hslen : slen < 2 ^ 64)
    (_hprod : cnt * WORD_COUNT_STRIDE < 2 ^ 64)
    (hs : s.length = slen) (hutf : validUtf8 s = true)
    (hshort : frag.length < cnt * WORD_COUNT_STRIDE)
    (hkind : e.kind ≠ .unexpectedEof) :
    read_dict ⟨dictHeader cnt slen ++ s ++ frag, none⟩ = .error .FormatError ∧
    read_dict ⟨dictHeader cnt slen ++ s ++ frag, some e⟩ = .error (.IoError e) ∧
    (∀ sp : List Nat, sp.length < slen →
      read_dict ⟨dictHeader cnt slen ++ sp, none⟩ = .error (.IoError ⟨.unexpectedEof⟩)) := by
  have e256 : (256 : Nat) ^ 8 = 2 ^ 64 := by norm_num
  have hnorm : ∀ X : List Nat, dictHeader cnt slen ++ X =
      [68, 73, 67, 84] ++ (toLeBytes 4 1 ++ (toLeBytes USIZE cnt ++
        (toLeBytes USIZE slen ++ X))) := by
    intro X
    simp [dictHeader, List.append_assoc]
  have hv : fromLeBytes (toLeBytes 4 1) = 1 := rfl
  have hcm : fromLeBytes (toLeBytes USIZE cnt) = cnt :=
    fromLe_toLe 8 _ (by rw [e256]; exact hcnt)
  have hsm : fromLeBytes (toLeBytes USIZE slen) = slen :=
    fromLe_toLe 8 _ (by rw [e256]; exact hslen)
  refine ⟨?_, ?_, ?_⟩
  · have h1 := readExact_append [68, 73, 67, 84] (toLeBytes 4 1 ++ (toLeBytes USIZE cnt ++
      (toLeBytes USIZE slen ++ (s ++ frag)))) none 4 rfl
    have h2 := readExact_append (toLeBytes 4 1) (toLeBytes USIZE cnt ++
      (toLeBytes USIZE slen ++ (s ++ frag))) none 4 (toLeBytes_length 4 1)
    have h3 := readExact_append (toLeBytes USIZE cnt)
      (toLeBytes USIZE slen ++ (s ++ frag)) none USIZE (toLeBytes_length USIZE cnt)
    have h4 := readExact_append (toLeBytes USIZE slen) (s ++ frag) none USIZE
      (toLeBytes_length USIZE slen)
    have h5 : readExact ⟨s ++ frag, none⟩ slen = .ok (s, ⟨frag, none⟩) := by
      rw [← hs]
      exact readExact_append _ _ _ _ rfl
    have h6 : readExact ⟨frag, none⟩ (cnt * WORD_COUNT_STRIDE) =
        .error ⟨.unexpectedEof⟩ := readExact_short frag none _ hshort
    rw [List.append_assoc, hnorm]
    simp only [read_dict, h1, h2, h3, h4, hcm, hsm, h5, hutf, h6, hv]
    simp
  · have h1 := readExact_append [68, 73, 67, 84] (toLeBytes 4 1 ++ (toLeBytes USIZE cnt ++
      (toLeBytes USIZE slen ++ (s ++ frag)))) (some e) 4 rfl
    have h2 := readExact_append (toLeBytes 4 1) (toLeBytes USIZE cnt ++
      (toLeBytes USIZE slen ++ (s ++ frag))) (some e) 4 (toLeBytes_length 4 1)
    have h3 := readExact_append (toLeBytes USIZE cnt)
      (toLeBytes USIZE slen ++ (s ++ frag)) (some e) USIZE (toLeBytes_length USIZE cnt)
    have h4 := readExact_append (toLeBytes USIZE slen) (s ++ frag) (some e) USIZE
      (toLeBytes_length USIZE slen)
    have h5 : readExact ⟨s ++ frag, some e⟩ slen = .ok (s, ⟨frag, some e⟩) := by
      rw [← hs]
      exact readExact_append _ _ _ _ rfl
    have h6 : readExact ⟨frag, some e⟩ (cnt * WORD_COUNT_STRIDE) = .error e :=
      readExact_short frag (some e) _ hshort
    rw [List.append_assoc, hnorm]
    simp only [read_dict, h1, h2, h3, h4, hcm, hsm, h5, hutf, h6, hv]
    simp [hkind]
  · intro sp hsp
    have h1 := readExact_append [68, 73, 67, 84] (toLeBytes 4 1 ++ (toLeBytes USIZE cnt ++
      (toLeBytes USIZE slen ++ sp))) none 4 rfl
    have h2 := readExact_append (toLeBytes 4 1) (toLeBytes USIZE cnt ++
      (toLeBytes USIZE slen ++ sp)) none 4 (toLeBytes_length 4 1)
    have h3 := readExact_append (toLeBytes USIZE cnt)
      (toLeBytes USIZE slen ++ sp) none USIZE (toLeBytes_length USIZE cnt)
    have h4 := readExact_append (toLeBytes USIZE slen) sp none USIZE
      (toLeBytes_length USIZE slen)
    have h5 : readExact ⟨sp, none⟩ slen = .error ⟨.unexpectedEof⟩ :=
      readExact_short sp none _ hsp
    rw [hnorm]
    simp only [read_dict, h1, h2, h3, h4, hcm, hsm, h5, hv]
    simp

theorem C2_amended_witness :
    (read_dict ⟨dictHeader 1 1 ++ [97] ++ [], none⟩ = .error .FormatError ∧
     read_dict ⟨dictHeader 1 1 ++ [97] ++ [], some ⟨.other 5⟩⟩ =
       .error (.IoError ⟨.other 5⟩) ∧
     (∀ sp : List Nat, sp.length < 1 →
       read_dict ⟨dictHeader 1 1 ++ sp, none⟩ = .error (.IoError ⟨.unexpectedEof⟩))) :=
  C2_amended 1 1 [97] [] ⟨.other 5⟩ (by decide) (by decide) (by decide) rfl rfl
    (by decide) (by decide)
